import Mathlib

/-!
Shallow embedding of the xecs archetype storage engine — the paged sparse
array and columnar storage of src/src/storage.hpp, the recycling identifier
allocator of src/src/entity_manager.hpp, the registry/view layer of
src/src/registry.hpp and the compile-time list pruning of
src/src/archetype.hpp — together with proofs about its specified behaviour.

Modelling conventions:

* entities are unsigned integers, modelled as `Nat`; the size-dependent
  constants (`entites_per_page`, `stack_capacity`, ...) are instantiated for
  a 32-bit entity type, the configuration the repository exercises;
* malloc-style uninitialised memory is modelled with `Option`: a sparse-array
  slot that was never written holds `none`.  A C++ read of such a slot yields
  indeterminate bytes (and a read through an unallocated page pointer is
  undefined behaviour), so every operation whose C++ result would depend on
  such a read is `Option`-valued and produces `none` there;
* the dense arrays are modelled as lists whose length is the live size
  `_size`.  The slack region `[size, capacity)` of the C++ arrays is
  unobservable — every read of `_dense` or of a component array the code
  performs is guarded by `index < _size` — so only the capacity counter is
  kept.  A C++ write landing in the slack region (which can happen during
  `erase` of an absent entity, a documented precondition violation) is

  modelled by `List.set` out of range, which leaves the list unchanged,
  exactly as such a write is invisible to later guarded reads;
* the compile-time component dispatch (template parameter packs) is erased:
  one representative component column of type `α` stands for the parallel
  per-component columns, and archetypes/storages are addressed by index.
-/

/-- The `sparse_array::entites_per_page = SPARSE_ARRAY_PAGE_SIZE / sizeof(entity_type)`,
for the 4096-byte page and a 4-byte entity type. -/
def entitesPerPage : Nat := 1024

/-- The `sparse_array::page_shift`, the base-2 logarithm of `entites_per_page`. -/
def pageShift : Nat := 10

/-- The `sparse_array::offset_mask = (1 << page_shift) - 1`. -/
def offsetMask : Nat := (1 <<< pageShift) - 1

/-- The `sparse_array<Entity>` (src/src/storage.hpp): a paged array mapping an
entity to a dense index.  `pages` is `_pages` (the length of the page-pointer
array, null pointers included), `alloc p` tells whether page `p` has been
allocated, `slot p o` is the content of page `p` at offset `o` (`none` for a
never-written slot, whose C++ content is malloc garbage) and `shared` is the
`_shared` reference count. -/
structure SparseArray where
  pages : Nat
  alloc : Nat → Bool
  slot : Nat → Nat → Option Nat
  shared : Nat

/-- The `sparse_array::page(entity) = entity >> page_shift`. -/
def SparseArray.page (e : Nat) : Nat := e >>> pageShift

/-- The `sparse_array::offset(entity) = entity & offset_mask`. -/
def SparseArray.offset (e : Nat) : Nat := e &&& offsetMask

/-- The freshly constructed `sparse_array`: 8 page pointers, all null
(`calloc`), nothing written, share count 0. -/
def sparseInit : SparseArray :=
  { pages := 8, alloc := fun _ => false, slot := fun _ _ => none, shared := 0 }

/-- The `sparse_array::assure(page)`: grow the page-pointer array to `page + 1`
entries if needed (`realloc` + zeroing of the new pointers), then allocate the
page if its pointer is null.  A fresh page's contents are malloc garbage, so
`slot` is unchanged (never-written slots stay `none`). -/
def SparseArray.assure (sp : SparseArray) (p : Nat) : SparseArray :=
  { sp with
    pages := if sp.pages ≤ p then p + 1 else sp.pages,
    alloc := fun q => if q = p then true else sp.alloc q }

/-- A write `(*_sparse)[page(e)][offset(e)] = v` (performed by
`storage::insert` and `storage::erase`). -/
def SparseArray.write (sp : SparseArray) (e v : Nat) : SparseArray :=
  { sp with
    slot := fun p o =>
      if p = SparseArray.page e ∧ o = SparseArray.offset e then some v
      else sp.slot p o }

/-- The `sparse_array::index(entity) = _array[page(entity)][offset(entity)]`.
The C++ accessor performs no checks: reading through an out-of-range or null
page pointer is undefined behaviour and reading a never-written slot yields
indeterminate data.  All three cases are modelled as `none`; `storage`'s own
`contains` performs exactly the two page guards before reading (see
`Storage.contains`). -/
def SparseArray.index (sp : SparseArray) (e : Nat) : Option Nat :=
  if SparseArray.page e < sp.pages ∧ sp.alloc (SparseArray.page e) = true then
    sp.slot (SparseArray.page e) (SparseArray.offset e)
  else none

/-- The `sparse_array::share()`. -/
def SparseArray.incShare (sp : SparseArray) : SparseArray :=
  { sp with shared := sp.shared + 1 }

/-- The `sparse_array::unshare()`. -/
def SparseArray.decShare (sp : SparseArray) : SparseArray :=
  { sp with shared := sp.shared - 1 }

/-- The `storage<Entity, archetype<Components...>>` (src/src/storage.hpp): one
dense array of entities plus parallel component columns, collapsed to one
representative column of type `α`.  `dense`/`comps` hold exactly the live
slots `[0, _size)` (see the module comment), `capacity` is `_capacity`. -/
structure Storage (α : Type) where
  dense : List Nat
  comps : List α
  capacity : Nat

/-- The `storage::size()`. -/
def Storage.size {α : Type} (st : Storage α) : Nat := st.dense.length

/-- The freshly constructed storage: size 0, capacity 0. -/
def emptyStorage {α : Type} : Storage α :=
  { dense := [], comps := [], capacity := 0 }

/-- The `storage::insert(entity, components...)`: grow if full
(`capacity * 3 / 2 + 8`), assure the entity's sparse page, append the entity
and its component values at slot `_size`, record that slot in the sparse
array.  The sparse array may be shared, so it is threaded explicitly. -/
def Storage.insert {α : Type} (st : Storage α) (sp : SparseArray) (e : Nat)
    (c : α) : Storage α × SparseArray :=
  let cap := if st.dense.length = st.capacity
    then st.capacity * 3 / 2 + 8 else st.capacity
  let sp1 := sp.assure (SparseArray.page e)
  let sp2 := sp1.write e st.dense.length
  ({ dense := st.dense ++ [e], comps := st.comps ++ [c], capacity := cap }, sp2)

/-- The `storage::erase(entity)`: decrement `_size`, read the back entity and the
erased entity's slot, move the back record into that slot and redirect the
back entity's sparse entry there.  The C++ precondition is that the entity is
present; the `none` results model the undefined behaviour otherwise (reading
`_dense[SIZE_MAX]` on an empty storage, or an indeterminate sparse read).  A
stale in-range slot value is taken at face value, exactly as the C++ does.
`List.set` with an out-of-range slot leaves the list unchanged, matching a
write into the unobservable slack region `[size, capacity)`. -/
def Storage.erase {α : Type} (st : Storage α) (sp : SparseArray) (e : Nat) :
    Option (Storage α × SparseArray) :=
  if st.dense.length = 0 then none
  else
    match sp.index e with
    | none => none
    | some idx =>
      let n1 := st.dense.length - 1
      let back := st.dense.getD n1 0
      match st.comps[n1]? with
      | none => none
      | some bc =>
        some ({ dense := (st.dense.set idx back).take n1,
                comps := (st.comps.set idx bc).take n1,
                capacity := st.capacity },
              sp.write back idx)

/-- The `storage::contains(entity)`: the two page guards, then
`index < _size && _dense[index] == entity`.  The dense comparison is what
makes a shared or stale sparse entry harmless. -/
def Storage.contains {α : Type} (st : Storage α) (sp : SparseArray)
    (e : Nat) : Bool :=
  match sp.index e with
  | none => false
  | some idx => decide (idx < st.dense.length) && (st.dense.getD idx 0 == e)

/-- The `storage::unpack<Component>(entity)`: component read through one sparse
lookup.  The C++ returns an unchecked reference; `none` models the undefined
behaviour on an absent entity. -/
def Storage.unpack {α : Type} (st : Storage α) (sp : SparseArray)
    (e : Nat) : Option α :=
  match sp.index e with
  | none => none
  | some idx => st.comps[idx]?

/-- The `storage::shrink_to_fit()`: reallocate every dense array down to `_size`. -/
def Storage.shrinkToFit {α : Type} (st : Storage α) : Storage α :=
  if st.dense.length ≠ st.capacity then { st with capacity := st.dense.length }
  else st

/-- The `storage::clear()`: sets `_size` to zero.  The stale dense/component
array contents it leaves behind are unobservable (every read is guarded by
`index < _size`), so the exact-length-list model truncates them; the sparse
array is untouched and keeps its stale entries. -/
def Storage.clear {α : Type} (st : Storage α) : Storage α :=
  { st with dense := [], comps := [] }

/-- The `storage::share(sparse)`: throws `std::logic_error` unless the storage is
empty; otherwise unshares (or deletes, when it was the unshared owner) the
currently bound table and binds the supplied one, incrementing its count.
Returns the newly bound table and the surviving previous table (`none` when
the previous table was deleted). -/
def Storage.shareTable {α : Type} (st : Storage α) (cur neu : SparseArray) :
    Except String (SparseArray × Option SparseArray) :=
  if st.dense.length ≠ 0 then
    Except.error "You cannot share a sparse_array with a storage that is not empty"
  else
    Except.ok (neu.incShare,
      if cur.shared ≠ 0 then some cur.decShare else none)

/-- The dense/sparse consistency invariant of one storage: component column
parallel to the dense array, no duplicate entities, and the sparse array maps
every dense entity back to its slot. -/
structure StInv {α : Type} (st : Storage α) (sp : SparseArray) : Prop where
  len_comps : st.comps.length = st.dense.length
  nodup : st.dense.Nodup
  sp_ok : ∀ i e, st.dense[i]? = some e → sp.index e = some i

/-- The `entity_manager::stack_capacity = ENTITY_MANAGER_STACK_SIZE / sizeof(entity_type)`,
for the 16384-byte stack buffer and a 4-byte entity type. -/
def stackCapacity : Nat := 4096

/-- The `entity_manager::minimum_heap_capacity`, twice the stack capacity. -/
def minimumHeapCapacity : Nat := stackCapacity * 2

/-- The `entity_manager<Entity>` (src/src/entity_manager.hpp): a counter plus two
recycling stacks.  `stack`/`heap` hold the live prefixes of `_stack_buffer`
and `_heap_buffer` (lengths `_stack_reusable`/`_heap_reusable`, top at the
end of the list); `heapCapacity` is `_heap_capacity`. -/
structure EntityManager where
  current : Nat
  stack : List Nat
  heap : List Nat
  heapCapacity : Nat

/-- The freshly constructed `entity_manager`. -/
def initManager : EntityManager :=
  { current := 0, stack := [], heap := [], heapCapacity := minimumHeapCapacity }

/-- The `entity_manager::generate()`: pop the stack buffer if nonempty, else pop
the heap buffer if nonempty, else return and bump the counter. -/
def EntityManager.generate (m : EntityManager) : Nat × EntityManager :=
  if m.stack.length ≠ 0 then
    (m.stack.getLast?.getD 0, { m with stack := m.stack.dropLast })
  else if m.heap.length ≠ 0 then
    (m.heap.getLast?.getD 0, { m with heap := m.heap.dropLast })
  else
    (m.current, { m with current := m.current + 1 })

/-- The `entity_manager::release(entity)`: push onto the stack buffer while it
has room, otherwise onto the heap buffer, growing the heap capacity by the
factor `5 / 3` when it is full. -/
def EntityManager.release (m : EntityManager) (e : Nat) : EntityManager :=
  if m.stack.length < stackCapacity then { m with stack := m.stack ++ [e] }
  else
    let cap := if m.heap.length = m.heapCapacity
      then m.heapCapacity * 5 / 3 else m.heapCapacity
    { m with heap := m.heap ++ [e], heapCapacity := cap }

/-- The `entity_manager::release_all()`: reset the counter and forget all
recycled entries. -/
def EntityManager.releaseAll (m : EntityManager) : EntityManager :=
  { m with current := 0, stack := [], heap := [] }

/-- The `entity_manager::swap()`: `memcpy` as many entries as fit from the top of
the heap buffer onto the top of the stack buffer, preserving their order. -/
def EntityManager.swap (m : EntityManager) : EntityManager :=
  if m.heap.length ≠ 0 ∧ m.stack.length ≠ stackCapacity then
    let space := stackCapacity - m.stack.length
    let amt := if m.heap.length < space then m.heap.length else space
    { m with
      stack := m.stack ++ m.heap.drop (m.heap.length - amt),
      heap := m.heap.take (m.heap.length - amt) }
  else m

/-- The `entity_manager::shrink_to_fit()`: shrink the heap buffer to its live
content, but only when that content exceeds the minimum heap capacity. -/
def EntityManager.shrinkToFit (m : EntityManager) : EntityManager :=
  if m.heap.length ≠ m.heapCapacity ∧ m.heap.length > minimumHeapCapacity then
    { m with heapCapacity := m.heap.length }
  else m

/-- The recycled entities visible to `generate`, stack buffer first. -/
def freeList (m : EntityManager) : List Nat := m.stack ++ m.heap

/-- The `contains_all_v<List, Types...>` (src/src/archetype.hpp): the schema
`s` contains every required field type.  Field types are identified by
natural numbers. -/
def containsAllTypes (s : List Nat) (req : List Nat) : Bool :=
  req.all fun t => s.contains t

/-- The `prune_for_t<ListOfLists, RequiredTypes...>` (src/src/archetype.hpp,
lines 209-230): keep the archetypes that contain all required types.  The
accepting specialization forms `concat<HeadList, next>` — it prepends the
head to the pruned tail, so registration order is preserved. -/
def pruneFor : List (List Nat) → List Nat → List (List Nat)
  | [], _ => []
  | s :: rest, req =>
    if containsAllTypes s req then s :: pruneFor rest req
    else pruneFor rest req

/-- The candidate-list computation the specification describes: filter to the
supersets of the requested field set, then move the first exact-size match to
the front, keeping registration order for the rest. -/
def pruneForSpec (xs : List (List Nat)) (req : List Nat) : List (List Nat) :=
  let kept := xs.filter fun s => containsAllTypes s req
  match kept.find? fun s => s.length == req.length with
  | some ex => ex :: kept.erase ex
  | none => kept

/-- The `registry<Entity, list<Archetypes...>>` (src/src/registry.hpp): the
per-archetype storages (addressed by index), the shared `sparse_array` and
the `entity_manager`. -/
structure Registry (α : Type) where
  storages : List (Storage α)
  shared : SparseArray
  manager : EntityManager

/-- A freshly constructed registry with `n` empty storages:
`setup_shared_memory` makes every storage share the registry's
`sparse_array`, so its share count is `n`. -/
def initRegistry (α : Type) (n : Nat) : Registry α :=
  { storages := List.replicate n emptyStorage,
    shared := { sparseInit with shared := n },
    manager := initManager }

/-- The `registry::create(components...)`: generate an entity, insert it into
the storage of the archetype exactly matching the component set.  The
archetype is resolved at compile time (`find_for_t`); an index with no
storage models the `static_assert` failure and yields `none`. -/
def Registry.create {α : Type} (r : Registry α) (i : Nat) (c : α) :
    Option (Nat × Registry α) :=
  match r.storages[i]? with
  | none => none
  | some st =>
    let g := r.manager.generate
    let is := st.insert r.shared g.1 c
    some (g.1,
      { storages := r.storages.set i is.1, shared := is.2, manager := g.2 })

/-- The `basic_view::r_apply` specialised to the erase action used by
`basic_view::destroy` (src/src/registry.hpp lines 524-538): probe each
candidate storage with `contains`, but apply the action to the last
candidate unconditionally ("we can skip the verification for the last
possible storage").  The empty list models the `static_assert` that a view
is never empty. -/
def rApplyErase {α : Type} :
    List (Storage α) → SparseArray → Nat →
    Option (List (Storage α) × SparseArray)
  | [], _, _ => none
  | [st], sp, e => (st.erase sp e).map fun p => ([p.1], p.2)
  | st :: rest, sp, e =>
    if st.contains sp e then (st.erase sp e).map fun p => (p.1 :: rest, p.2)
    else (rApplyErase rest sp e).map fun p => (st :: p.1, p.2)

/-- The `basic_view::destroy(entity)` for the view over all archetypes (the view
`registry::destroy<>` builds): erase via `r_apply`, then release the entity
back to the `entity_manager`. -/
def Registry.viewDestroy {α : Type} (r : Registry α) (e : Nat) :
    Option (Registry α) :=
  (rApplyErase r.storages r.shared e).map fun p =>
    { storages := p.1, shared := p.2, manager := r.manager.release e }

/-- The view-mediated destroy the specification describes ("reports a
not-found condition rather than continuing past the end of the candidate
list"): if no candidate storage contains the entity, return an explicit
error; otherwise erase where found and release the entity. -/
def Registry.viewDestroySpec {α : Type} (r : Registry α) (e : Nat) :
    Except String (Registry α) :=
  if r.storages.any fun st => st.contains r.shared e then
    match (rApplyErase r.storages r.shared e).map (fun p =>
        { storages := p.1, shared := p.2,
          manager := r.manager.release e : Registry α }) with
    | some r' => Except.ok r'
    | none => Except.error "undefined behaviour"
  else Except.error "not found"

/-- The `registry::destroy_all()`: clear every storage and
`entity_manager::release_all`. -/
def Registry.destroyAll {α : Type} (r : Registry α) : Registry α :=
  { r with storages := r.storages.map Storage.clear,
           manager := r.manager.releaseAll }

/-- The `registry::optimize()`: `shrink_to_fit` on every storage, then the
entity manager's `swap` and `shrink_to_fit`. -/
def Registry.optimize {α : Type} (r : Registry α) : Registry α :=
  { r with storages := r.storages.map Storage.shrinkToFit,
           manager := r.manager.swap.shrinkToFit }

/-- All entities currently held by some storage of the registry. -/
def liveList {α : Type} (r : Registry α) : List Nat :=
  (r.storages.map Storage.dense).flatten


/-- A direct insert/erase workload against one storage.  `ins` carries the
entity and its component value. -/
inductive StorageOp (α : Type) where
  | ins (e : Nat) (c : α)
  | del (e : Nat)

/-- One storage operation, gated by its documented precondition (the C++
warns that inserting a present entity or erasing an absent one is undefined
behaviour, and tells callers to check `contains` first). -/
def stepStorage {α : Type} (s : Storage α × SparseArray) (op : StorageOp α) :
    Option (Storage α × SparseArray) :=
  match op with
  | StorageOp.ins e c =>
    if s.1.contains s.2 e then none else some (s.1.insert s.2 e c)
  | StorageOp.del e =>
    if s.1.contains s.2 e then s.1.erase s.2 e else none

/-- Run a storage workload. -/
def execStorage {α : Type} (s : Storage α × SparseArray) :
    List (StorageOp α) → Option (Storage α × SparseArray)
  | [] => some s
  | op :: ops => (stepStorage s op).bind fun t => execStorage t ops

/-- A workload against the identifier allocator alone. -/
inductive ManagerOp where
  | gen
  | rel (e : Nat)
  | relAll
  | swp
  | shrink

/-- One allocator operation (all of them are total). -/
def stepManager (m : EntityManager) : ManagerOp → EntityManager
  | ManagerOp.gen => m.generate.2
  | ManagerOp.rel e => m.release e
  | ManagerOp.relAll => m.releaseAll
  | ManagerOp.swp => m.swap
  | ManagerOp.shrink => m.shrinkToFit

/-- Run an allocator workload. -/
def execManager (m : EntityManager) (ops : List ManagerOp) : EntityManager :=
  ops.foldl stepManager m

/-- An allocator state reachable from the freshly constructed manager. -/
def ManagerReachable (m : EntityManager) : Prop :=
  ∃ ops, execManager initManager ops = m

/-- A registry workload of creations and destructions. -/
inductive RegistryOp (alpha : Type) where
  | create (i : Nat) (c : alpha)
  | destroy (e : Nat)

/-- One registry operation.  `destroy` is gated by liveness (the claim rules
out double-destroy; the C++ documents destroying an absent entity as
undefined behaviour). -/
def stepRegistry {α : Type} (r : Registry α) (op : RegistryOp α) :
    Option (Registry α) :=
  match op with
  | RegistryOp.create i c => (r.create i c).map Prod.snd
  | RegistryOp.destroy e =>
    if r.storages.any fun st => st.contains r.shared e then r.viewDestroy e
    else none

/-- Run a registry workload. -/
def execRegistry {α : Type} (r : Registry α) :
    List (RegistryOp α) → Option (Registry α)
  | [] => some r
  | op :: ops => (stepRegistry r op).bind fun t => execRegistry t ops

/-- The registry-level invariant: every storage satisfies its dense/sparse
invariant against the shared table, no entity is held twice (within or
across storages), and the allocator counter/free lists are consistent with
the live set. -/
structure RegInv {α : Type} (r : Registry α) : Prop where
  st_inv : ∀ st ∈ r.storages, StInv st r.shared
  live_nodup : (liveList r).Nodup
  live_lt : ∀ a ∈ liveList r, a < r.manager.current
  free_lt : ∀ a ∈ freeList r.manager, a < r.manager.current
  free_nodup : (freeList r.manager).Nodup
  free_live : ∀ a ∈ freeList r.manager, a ∉ liveList r

/-- Concrete storage workload: three inserts, one swap-erase, one reuse. -/
def c1ops : List (StorageOp Nat) :=
  [StorageOp.ins 3 30, StorageOp.ins 7 70, StorageOp.ins 11 110,
   StorageOp.del 3, StorageOp.ins 5 50]

/-- The storage/sparse pair the workload `c1ops` produces. -/
def c1res : Storage Nat × SparseArray :=
  (execStorage (emptyStorage, sparseInit) c1ops).getD (emptyStorage, sparseInit)

/-- Concrete storage workload exercising `erase` of a non-last entity. -/
def c2ops : List (StorageOp Nat) :=
  [StorageOp.ins 4 40, StorageOp.ins 9 90, StorageOp.ins 6 60]

/-- The storage/sparse pair the workload `c2ops` produces. -/
def c2res : Storage Nat × SparseArray :=
  (execStorage (emptyStorage, sparseInit) c2ops).getD (emptyStorage, sparseInit)

/-- Scenario D of the specification: storage A, bound to a table shared by
two storages, holds entity 10 only. -/
def c3step1 : Storage Nat × SparseArray :=
  Storage.insert emptyStorage { sparseInit with shared := 2 } 10 1

/-- Storage B inserts entity 20 through the same shared table. -/
def c3step2 : Storage Nat × SparseArray :=
  Storage.insert emptyStorage c3step1.2 20 2

/-- Storage A of scenario D. -/
def c3A : Storage Nat := c3step1.1

/-- Storage B of scenario D. -/
def c3B : Storage Nat := c3step2.1

/-- The shared table of scenario D after both inserts. -/
def c3sp : SparseArray := c3step2.2

/-- Concrete registry workload over two archetypes. -/
def c4ops : List (RegistryOp Nat) :=
  [RegistryOp.create 0 5, RegistryOp.create 1 7, RegistryOp.create 0 9,
   RegistryOp.destroy 1, RegistryOp.create 1 3]

/-- The registry the workload `c4ops` produces. -/
def c4res : Registry Nat :=
  (execRegistry (initRegistry Nat 2) c4ops).getD (initRegistry Nat 2)

/-- The allocator workload that fills the stack buffer: generate 4097
entities, then release 0..4095 (the stack buffer holds 4096 entries). -/
def c5ops : List ManagerOp :=
  List.replicate 4097 ManagerOp.gen ++ (List.range 4096).map ManagerOp.rel

/-- The allocator state with a full stack buffer that `c5ops` reaches. -/
def c5full : EntityManager :=
  { current := 4097, stack := List.range 4096, heap := [],
    heapCapacity := minimumHeapCapacity }

/-- A small allocator state whose stack buffer has room. -/
def c5small : EntityManager := initManager.release 7

/-- Concrete registry workload leaving entity 1 destroyed but its sparse
entry stale: create entities 0 and 1 in the single archetype, then destroy
entity 1. -/
def c6ops : List (RegistryOp Nat) :=
  [RegistryOp.create 0 5, RegistryOp.create 0 7, RegistryOp.destroy 1]

/-- The registry the workload `c6ops` produces: one storage holding exactly
entity 0, and a stale sparse entry for the destroyed entity 1. -/
def c6reg : Registry Nat :=
  (execRegistry (initRegistry Nat 1) c6ops).getD (initRegistry Nat 1)

-- Lemmas and theorems.  Everything above this line is the embedding of the
-- source; everything below proves properties about it.

theorem SparseArray.page_eq_div (a : Nat) :
    SparseArray.page a = a / 2 ^ pageShift :=
  Nat.shiftRight_eq_div_pow a pageShift

theorem SparseArray.offset_eq_mod (a : Nat) :
    SparseArray.offset a = a % 2 ^ pageShift := by
  show a &&& offsetMask = a % 2 ^ pageShift
  rw [show offsetMask = 2 ^ pageShift - 1 by
        show (1 <<< pageShift) - 1 = _
        rw [Nat.shiftLeft_eq, one_mul],
      Nat.and_pow_two_sub_one_eq_mod]

/-- The page/offset decomposition of an entity is injective. -/
theorem SparseArray.page_offset_inj {a b : Nat}
    (hp : SparseArray.page a = SparseArray.page b)
    (ho : SparseArray.offset a = SparseArray.offset b) : a = b := by
  rw [SparseArray.page_eq_div, SparseArray.page_eq_div] at hp
  rw [SparseArray.offset_eq_mod, SparseArray.offset_eq_mod] at ho
  calc a = 2 ^ pageShift * (a / 2 ^ pageShift) + a % 2 ^ pageShift :=
        (Nat.div_add_mod a (2 ^ pageShift)).symm
    _ = 2 ^ pageShift * (b / 2 ^ pageShift) + b % 2 ^ pageShift := by rw [hp, ho]
    _ = b := Nat.div_add_mod b (2 ^ pageShift)

theorem SparseArray.index_write_ne {e' e : Nat} (sp : SparseArray) (v : Nat)
    (h : e' ≠ e) : (sp.write e v).index e' = sp.index e' := by
  have hc : ¬ (SparseArray.page e' = SparseArray.page e ∧
      SparseArray.offset e' = SparseArray.offset e) :=
    fun hc => h (SparseArray.page_offset_inj hc.1 hc.2)
  simp [SparseArray.index, SparseArray.write, hc]

theorem SparseArray.index_write_self {sp : SparseArray} {e w : Nat} (v : Nat)
    (h : sp.index e = some w) : (sp.write e v).index e = some v := by
  by_cases hg : SparseArray.page e < sp.pages ∧ sp.alloc (SparseArray.page e) = true
  · simp [SparseArray.index, SparseArray.write, hg]
  · simp [SparseArray.index, hg] at h

theorem SparseArray.index_assure_write_self (sp : SparseArray) (e v : Nat) :
    ((sp.assure (SparseArray.page e)).write e v).index e = some v := by
  have hp : SparseArray.page e <
      (if sp.pages ≤ SparseArray.page e then SparseArray.page e + 1 else sp.pages) := by
    split <;> omega
  simp [SparseArray.index, SparseArray.write, SparseArray.assure, hp]

theorem SparseArray.index_assure_of_some {sp : SparseArray} {e v : Nat}
    (p : Nat) (h : sp.index e = some v) : (sp.assure p).index e = some v := by
  by_cases hg : SparseArray.page e < sp.pages ∧ sp.alloc (SparseArray.page e) = true
  · have h1 : SparseArray.page e < (if sp.pages ≤ p then p + 1 else sp.pages) := by
      have := hg.1
      split <;> omega
    rw [SparseArray.index, if_pos hg] at h
    have h2 : (if SparseArray.page e = p then true else sp.alloc (SparseArray.page e)) = true := by
      split
      · rfl
      · exact hg.2
    simp only [SparseArray.index, SparseArray.assure, h1, h2, true_and, and_self, if_true]
    exact h
  · rw [SparseArray.index, if_neg hg] at h
    exact absurd h (by simp)

theorem mem_of_getElem? {α : Type} {l : List α} {i : Nat} {a : α}
    (h : l[i]? = some a) : a ∈ l := by
  obtain ⟨hlt, hb⟩ := List.getElem?_eq_some_iff.mp h
  exact hb ▸ List.getElem_mem hlt

theorem getD_of_getElem? {α : Type} {l : List α} {i : Nat} {a : α} (d : α)
    (h : l[i]? = some a) : l.getD i d = a := by
  rw [List.getD_eq_getElem?_getD, h]
  rfl

/-- Splitting off the final element of a nonempty list. -/
theorem take_concat_of_getElem? {α : Type} {l : List α} {b : α}
    (h : l[l.length - 1]? = some b) : l.take (l.length - 1) ++ [b] = l := by
  obtain ⟨hlt, hb⟩ := List.getElem?_eq_some_iff.mp h
  conv_rhs => rw [← List.take_append_drop (l.length - 1) l]
  congr 1
  rw [List.drop_eq_getElem_cons hlt, hb]
  have hsucc : l.length - 1 + 1 = l.length := by omega
  rw [hsucc, List.drop_length]

/-- Overwriting position `i` (which held `a`) with `b` permutes the list
with `a` appended into the list with `b` appended. -/
theorem set_perm {α : Type} {l : List α} {i : Nat} {a : α} (b : α)
    (h : l[i]? = some a) : List.Perm (l.set i b ++ [a]) (l ++ [b]) := by
  induction l generalizing i with
  | nil => simp at h
  | cons c t ih =>
    cases i with
    | zero =>
      simp only [List.getElem?_cons_zero, Option.some.injEq] at h
      subst h
      simp only [List.set_cons_zero, List.cons_append]
      refine List.Perm.trans (List.Perm.cons b (List.perm_append_singleton c t)) ?_
      refine List.Perm.trans (List.Perm.swap c b t) ?_
      exact List.Perm.cons c (List.perm_append_singleton b t).symm
    | succ j =>
      simp only [List.getElem?_cons_succ] at h
      simp only [List.set_cons_succ, List.cons_append]
      exact List.Perm.cons c (ih h)

theorem StInv.index_of_mem {α : Type} {st : Storage α} {sp : SparseArray}
    (h : StInv st sp) {e : Nat} (he : e ∈ st.dense) :
    ∃ i, st.dense[i]? = some e ∧ sp.index e = some i ∧ i < st.dense.length := by
  obtain ⟨i, hi⟩ := List.getElem?_of_mem he
  exact ⟨i, hi, h.sp_ok i e hi, (List.getElem?_eq_some_iff.mp hi).1⟩

/-- Under the invariant, `contains` decides exactly membership in the dense
array, regardless of stale or shared sparse entries. -/
theorem Storage.contains_iff_mem {α : Type} {st : Storage α}
    {sp : SparseArray} (h : StInv st sp) (e : Nat) :
    st.contains sp e = true ↔ e ∈ st.dense := by
  constructor
  · intro hc
    cases hidx : sp.index e with
    | none => simp [Storage.contains, hidx] at hc
    | some idx =>
      simp only [Storage.contains, hidx, Bool.and_eq_true, decide_eq_true_eq,
        beq_iff_eq] at hc
      obtain ⟨h1, h2⟩ := hc
      have : st.dense[idx]? = some e := by
        rw [List.getElem?_eq_getElem h1]
        rw [List.getD_eq_getElem?_getD, List.getElem?_eq_getElem h1] at h2
        exact congrArg some h2
      exact mem_of_getElem? this
  · intro hm
    obtain ⟨i, hi, hidx, hlt⟩ := h.index_of_mem hm
    simp only [Storage.contains, hidx, Bool.and_eq_true, decide_eq_true_eq,
      beq_iff_eq]
    exact ⟨hlt, getD_of_getElem? 0 hi⟩

/-- The `insert` of a fresh entity preserves the invariant. -/
theorem StInv.insert {α : Type} {st : Storage α} {sp : SparseArray}
    (h : StInv st sp) {e : Nat} (he : e ∉ st.dense) (c : α) :
    StInv (st.insert sp e c).1 (st.insert sp e c).2 := by
  unfold Storage.insert
  simp only
  constructor
  case len_comps => simp [h.len_comps]
  case nodup =>
    rw [List.nodup_append]
    exact ⟨h.nodup, List.nodup_singleton e, fun a ha hae =>
      he ((List.mem_singleton.mp hae) ▸ ha)⟩
  case sp_ok =>
    intro i e' hi
    by_cases hie : i < st.dense.length
    · rw [List.getElem?_append_left hie] at hi
      have hne : e' ≠ e := fun hh => he (hh ▸ mem_of_getElem? hi)
      rw [SparseArray.index_write_ne _ _ hne]
      exact SparseArray.index_assure_of_some _ (h.sp_ok i e' hi)
    · rw [List.getElem?_append_right (Nat.le_of_not_lt hie)] at hi
      cases hd : i - st.dense.length with
      | zero =>
        rw [hd] at hi
        simp only [List.getElem?_cons_zero, Option.some.injEq] at hi
        have hieq : i = st.dense.length := by omega
        subst hieq
        rw [← hi]
        exact SparseArray.index_assure_write_self sp e st.dense.length
      | succ j =>
        rw [hd] at hi
        simp at hi

theorem Storage.unpack_eq_of_index {α : Type} {st : Storage α}
    {sp : SparseArray} {e i : Nat} (h : sp.index e = some i) :
    st.unpack sp e = st.comps[i]? := by
  simp [Storage.unpack, h]

theorem Storage.contains_true_of {α : Type} {st : Storage α}
    {sp : SparseArray} {e i : Nat} (h1 : sp.index e = some i)
    (h2 : st.dense[i]? = some e) : st.contains sp e = true := by
  obtain ⟨hlt, hel⟩ := List.getElem?_eq_some_iff.mp h2
  simp [Storage.contains, h1, hlt, getD_of_getElem? 0 h2, hel]

/-- The complete behaviour of `storage::erase` on a present entity under the
invariant: the erase is defined, the invariant is preserved, the dense array
loses exactly the erased entity (as a permutation), the sparse array changes
only at the moved back entity, every other record keeps its value, and the
swap-remove frame conditions hold (back record into the freed slot; pure
truncation when the erased entity occupied the last slot). -/
theorem Storage.erase_main {α : Type} {st : Storage α} {sp : SparseArray}
    {e : Nat} {idx : Nat} (h : StInv st sp) (hget : st.dense[idx]? = some e) :
    ∃ st' sp', st.erase sp e = some (st', sp') ∧
      StInv st' sp' ∧
      List.Perm (st'.dense ++ [e]) st.dense ∧
      st'.capacity = st.capacity ∧
      st'.dense.length = st.dense.length - 1 ∧
      e ∉ st'.dense ∧
      (∀ a ∈ st'.dense, a ∈ st.dense) ∧
      (∃ b ∈ st.dense, sp' = sp.write b idx) ∧
      (∀ e', e' ∈ st.dense → e' ≠ e →
        st'.unpack sp' e' = st.unpack sp e' ∧ st'.contains sp' e' = true) ∧
      (idx < st.dense.length - 1 →
        st'.dense[idx]? = some (st.dense.getD (st.dense.length - 1) 0) ∧
        st'.comps[idx]? = st.comps[st.dense.length - 1]? ∧
        (∀ j, j < st.dense.length - 1 → j ≠ idx →
          st'.dense[j]? = st.dense[j]? ∧ st'.comps[j]? = st.comps[j]?)) ∧
      (idx = st.dense.length - 1 →
        st'.dense = st.dense.take (st.dense.length - 1) ∧
        st'.comps = st.comps.take (st.dense.length - 1)) := by
  obtain ⟨hlt, hgetel⟩ := List.getElem?_eq_some_iff.mp hget
  have hn0 : ¬ (st.dense.length = 0) := by omega
  have hn1lt : st.dense.length - 1 < st.dense.length := by omega
  have hidx : sp.index e = some idx := h.sp_ok idx e hget
  have hback? : st.dense[st.dense.length - 1]? =
      some (st.dense.getD (st.dense.length - 1) 0) := by
    rw [List.getD_eq_getElem?_getD, List.getElem?_eq_getElem hn1lt]
    rfl
  have hbclt : st.dense.length - 1 < st.comps.length := by
    rw [h.len_comps]; omega
  obtain ⟨bc, hbc⟩ : ∃ bc, st.comps[st.dense.length - 1]? = some bc :=
    ⟨_, List.getElem?_eq_getElem hbclt⟩
  have hbmem : st.dense.getD (st.dense.length - 1) 0 ∈ st.dense :=
    mem_of_getElem? hback?
  have hspback : sp.index (st.dense.getD (st.dense.length - 1) 0) =
      some (st.dense.length - 1) := h.sp_ok _ _ hback?
  have heq : st.erase sp e = some
      ({ dense := (st.dense.set idx (st.dense.getD (st.dense.length - 1) 0)).take
            (st.dense.length - 1),
         comps := (st.comps.set idx bc).take (st.dense.length - 1),
         capacity := st.capacity },
       sp.write (st.dense.getD (st.dense.length - 1) 0) idx) := by
    unfold Storage.erase
    rw [if_neg hn0]
    simp only [hidx, hbc]
  set back := st.dense.getD (st.dense.length - 1) 0 with hbackdef
  set n1 := st.dense.length - 1 with hn1def
  set D := (st.dense.set idx back).take n1 with hDdef
  set C := (st.comps.set idx bc).take n1 with hCdef
  set sp' := sp.write back idx with hsp'def
  have hDlen : D.length = n1 := by
    rw [hDdef, List.length_take, List.length_set]
    omega
  have hClen : C.length = n1 := by
    rw [hCdef, List.length_take, List.length_set, h.len_comps]
    omega
  have hDj : ∀ j, j < n1 → j ≠ idx → D[j]? = st.dense[j]? := by
    intro j hj hne
    rw [hDdef, List.getElem?_take_of_lt hj, List.getElem?_set_ne (Ne.symm hne)]
  have hCj : ∀ j, j < n1 → j ≠ idx → C[j]? = st.comps[j]? := by
    intro j hj hne
    rw [hCdef, List.getElem?_take_of_lt hj, List.getElem?_set_ne (Ne.symm hne)]
  have hDidx : idx < n1 → D[idx]? = some back := by
    intro hidxlt
    rw [hDdef, List.getElem?_take_of_lt hidxlt, List.getElem?_set_self hlt]
  have hCidx : idx < n1 → C[idx]? = some bc := by
    intro hidxlt
    rw [hCdef, List.getElem?_take_of_lt hidxlt,
      List.getElem?_set_self (by rw [h.len_comps]; omega)]
  have htrunc : idx = n1 → D = st.dense.take n1 ∧ C = st.comps.take n1 := by
    intro hii
    constructor
    · apply List.ext_getElem?
      intro j
      rw [hDdef, List.getElem?_take, List.getElem?_take]
      split
      · rw [List.getElem?_set_ne (by omega)]
      · rfl
    · apply List.ext_getElem?
      intro j
      rw [hCdef, List.getElem?_take, List.getElem?_take]
      split
      · rw [List.getElem?_set_ne (by omega)]
      · rfl
  have hperm : List.Perm (D ++ [e]) st.dense := by
    rcases Nat.lt_or_ge idx n1 with hcase | hcase
    · have hsplitd : st.dense.take n1 ++ [back] = st.dense :=
        take_concat_of_getElem? hback?
      have hTlen : (st.dense.take n1).length = n1 :=
        List.length_take_of_le (by omega)
      have hTidx : (st.dense.take n1)[idx]? = some e := by
        rw [List.getElem?_take_of_lt hcase]
        exact hget
      have hD2 : D = (st.dense.take n1).set idx back := by
        apply List.ext_getElem?
        intro j
        rcases Nat.lt_or_ge j n1 with hj | hj
        · by_cases hji : j = idx
          · subst hji
            rw [hDidx hcase, List.getElem?_set_self (by rw [hTlen]; omega)]
          · rw [hDj j hj hji, List.getElem?_set_ne (Ne.symm hji),
              List.getElem?_take_of_lt hj]
        · have hL : D[j]? = none := by
            rw [List.getElem?_eq_none_iff, hDlen]
            omega
          have hR : ((st.dense.take n1).set idx back)[j]? = none := by
            rw [List.getElem?_eq_none_iff, List.length_set, hTlen]
            omega
          rw [hL, hR]
      rw [hD2]
      refine List.Perm.trans (set_perm back hTidx) ?_
      rw [hsplitd]
    · have hii : idx = n1 := by omega
      have hbe : back = e := by
        have hbb := hback?
        rw [← hii, hget] at hbb
        exact (Option.some.inj hbb).symm
      rw [(htrunc hii).1]
      have htc := take_concat_of_getElem? hback?
      rw [hbe] at htc
      rw [hn1def, htc]
  have hnodup2 : (D ++ [e]).Nodup := hperm.nodup_iff.mpr h.nodup
  have hDnodup : D.Nodup := (List.nodup_append.mp hnodup2).1
  have heD : e ∉ D := fun he =>
    (List.nodup_append.mp hnodup2).2.2 he (List.mem_singleton.mpr rfl)
  have hsub : ∀ a ∈ D, a ∈ st.dense := fun a ha =>
    hperm.subset (List.mem_append_left _ ha)
  have hback_pos : ∀ j e', st.dense[j]? = some e' → e' = back → j = n1 := by
    intro j e' hj he'
    subst he'
    exact List.getElem?_inj (List.getElem?_eq_some_iff.mp hj).1 h.nodup
      (hj.trans hback?.symm)
  have hsp'back : sp'.index back = some idx :=
    SparseArray.index_write_self idx hspback
  have hsp'ne : ∀ a, a ≠ back → sp'.index a = sp.index a := fun a ha =>
    SparseArray.index_write_ne sp idx ha
  refine ⟨_, _, heq, ?_, hperm, rfl, hDlen, heD, hsub, ⟨_, hbmem, rfl⟩, ?_, ?_, ?_⟩
  · -- the invariant is preserved
    constructor
    case len_comps => rw [hClen, hDlen]
    case nodup => exact hDnodup
    case sp_ok =>
      intro j e'' hj
      have hj2 : D[j]? = some e'' := hj
      have hjlt : j < n1 := by
        have := (List.getElem?_eq_some_iff.mp hj2).1
        omega
      by_cases hji : j = idx
      · subst hji
        rw [hDidx hjlt] at hj2
        rw [← Option.some.inj hj2]
        exact hsp'back
      · rw [hDj j hjlt hji] at hj2
        have hne : e'' ≠ back := fun hbb => by
          have := hback_pos j e'' hj2 hbb
          omega
        rw [hsp'ne e'' hne]
        exact h.sp_ok j e'' hj2
  · -- every other record keeps its value and stays present
    intro e' hmem hne
    obtain ⟨i', hi', hspi', hi'lt⟩ := h.index_of_mem hmem
    have hi'ne : i' ≠ idx := fun hh =>
      hne (Option.some.inj ((hh ▸ hi').symm.trans hget))
    by_cases hbe' : e' = back
    · have hi'n1 : i' = n1 := hback_pos i' e' hi' hbe'
      have hidxlt : idx < n1 := by
        rcases Nat.lt_or_ge idx n1 with hc | hc
        · exact hc
        · exact absurd (by omega : idx = n1) (fun hh => hi'ne (by omega))
      subst hbe'
      constructor
      · rw [Storage.unpack_eq_of_index hsp'back, Storage.unpack_eq_of_index hspi']
        show C[idx]? = st.comps[i']?
        rw [hCidx hidxlt, hi'n1, hbc]
      · exact Storage.contains_true_of hsp'back
          (show D[idx]? = some back from hDidx hidxlt)
    · have hi'n1 : i' ≠ n1 := fun hh =>
        hbe' (Option.some.inj ((hh ▸ hi').symm.trans hback?))
      have hi'lt1 : i' < n1 := by omega
      constructor
      · rw [Storage.unpack_eq_of_index (hspi' ▸ hsp'ne e' hbe'),
          Storage.unpack_eq_of_index hspi']
        show C[i']? = st.comps[i']?
        exact hCj i' hi'lt1 hi'ne
      · refine Storage.contains_true_of ?_ (show D[i']? = some e' from ?_)
        · rw [hsp'ne e' hbe']
          exact hspi'
        · rw [hDj i' hi'lt1 hi'ne]
          exact hi'
  · -- swap-remove frame conditions, erased slot not last
    intro hidxlt
    exact ⟨hDidx hidxlt, by rw [hCidx hidxlt, hbc],
      fun j hj hne => ⟨hDj j hj hne, hCj j hj hne⟩⟩
  · -- pure truncation when the erased slot is the last one
    intro hii
    exact htrunc hii

/-- The empty storage satisfies the invariant against any sparse array. -/
theorem stInv_empty {α : Type} (sp : SparseArray) :
    StInv (emptyStorage : Storage α) sp := by
  constructor
  · rfl
  · exact List.nodup_nil
  · intro i e hi
    simp [emptyStorage] at hi

/-- An insert of a fresh entity into one storage leaves the invariant of any
other storage that does not hold that entity intact: the sparse writes of
`insert` touch only the inserted entity's row. -/
theorem StInv.insert_other {α : Type} {other st : Storage α}
    {sp : SparseArray} (h : StInv other sp) {e : Nat} (he : e ∉ other.dense)
    (c : α) : StInv other (st.insert sp e c).2 := by
  constructor
  · exact h.len_comps
  · exact h.nodup
  · intro i e' hi
    have hne : e' ≠ e := fun hh => he (hh ▸ mem_of_getElem? hi)
    show ((sp.assure (SparseArray.page e)).write e st.dense.length).index e' = some i
    rw [SparseArray.index_write_ne _ _ hne]
    exact SparseArray.index_assure_of_some _ (h.sp_ok i e' hi)

/-- Any storage workload that respects the documented preconditions
preserves the invariant. -/
theorem execStorage_inv {α : Type} {s out : Storage α × SparseArray}
    {ops : List (StorageOp α)} (h : StInv s.1 s.2)
    (hex : execStorage s ops = some out) : StInv out.1 out.2 := by
  induction ops generalizing s with
  | nil =>
    simp only [execStorage] at hex
    exact (Option.some.inj hex) ▸ h
  | cons op ops ih =>
    simp only [execStorage] at hex
    cases op with
    | ins e c =>
      simp only [stepStorage] at hex
      by_cases hc : s.1.contains s.2 e = true
      · simp [hc] at hex
      · simp only [hc, Bool.false_eq_true, if_false, Option.some_bind] at hex
        have hmem : e ∉ s.1.dense := fun hm =>
          hc ((Storage.contains_iff_mem h e).mpr hm)
        exact ih (h.insert hmem c) hex
    | del e =>
      simp only [stepStorage] at hex
      by_cases hc : s.1.contains s.2 e = true
      · simp only [hc, if_true] at hex
        have hmem : e ∈ s.1.dense := (Storage.contains_iff_mem h e).mp hc
        obtain ⟨i, hi, _, _⟩ := h.index_of_mem hmem
        obtain ⟨st', sp', heq, hinv', _⟩ := Storage.erase_main h hi
        rw [heq, Option.some_bind] at hex
        exact ih hinv' hex
      · simp [hc] at hex

/-- The `generate` either pops a recycled entity (stack buffer first) or returns
the counter: the popped case removes exactly one entry from the free pool
and keeps the counter, the counter case requires the free pool empty. -/
theorem EntityManager.generate_cases (m : EntityManager) :
    (m.generate.1 ∈ freeList m ∧
     List.Perm (freeList m.generate.2 ++ [m.generate.1]) (freeList m) ∧
     m.generate.2.current = m.current)
    ∨ (freeList m = [] ∧ m.generate.1 = m.current ∧
       m.generate.2.current = m.current + 1 ∧ freeList m.generate.2 = []) := by
  by_cases hs : m.stack.length = 0
  · have hse : m.stack = [] := List.length_eq_zero.mp hs
    by_cases hh : m.heap.length = 0
    · have hhe : m.heap = [] := List.length_eq_zero.mp hh
      right
      simp [EntityManager.generate, freeList, hs, hh, hse, hhe]
    · left
      have hhne : m.heap ≠ [] := fun hc => hh (by rw [hc]; rfl)
      have htop : m.heap.getLast?.getD 0 = m.heap.getLast hhne := by
        rw [List.getLast?_eq_getLast _ hhne]
        rfl
      simp only [EntityManager.generate, hs, ne_eq, not_true_eq_false,
        if_false, hh, not_false_eq_true, if_true]
      refine ⟨?_, ?_, trivial⟩
      · rw [htop]
        exact List.mem_append_right _ (List.getLast_mem hhne)
      · show List.Perm ((m.stack ++ m.heap.dropLast) ++ [m.heap.getLast?.getD 0])
          (m.stack ++ m.heap)
        rw [htop, List.append_assoc, List.dropLast_append_getLast hhne]
  · left
    have hsne : m.stack ≠ [] := fun hc => hs (by rw [hc]; rfl)
    have htop : m.stack.getLast?.getD 0 = m.stack.getLast hsne := by
      rw [List.getLast?_eq_getLast _ hsne]
      rfl
    simp only [EntityManager.generate, hs, ne_eq, not_false_eq_true, if_true]
    refine ⟨?_, ?_, trivial⟩
    · rw [htop]
      exact List.mem_append_left _ (List.getLast_mem hsne)
    · show List.Perm ((m.stack.dropLast ++ m.heap) ++ [m.stack.getLast?.getD 0])
        (m.stack ++ m.heap)
      rw [htop, List.append_assoc]
      refine List.Perm.trans (List.Perm.append_left _ (List.perm_append_comm)) ?_
      rw [← List.append_assoc, List.dropLast_append_getLast hsne]

/-- The `release` keeps the counter. -/
theorem EntityManager.release_current (m : EntityManager) (e : Nat) :
    (m.release e).current = m.current := by
  unfold EntityManager.release
  split <;> rfl

/-- The `release` adds exactly the released entity to the free pool. -/
theorem EntityManager.release_free (m : EntityManager) (e : Nat) :
    List.Perm (freeList (m.release e)) (freeList m ++ [e]) := by
  unfold EntityManager.release freeList
  split
  · show List.Perm ((m.stack ++ [e]) ++ m.heap) ((m.stack ++ m.heap) ++ [e])
    rw [List.append_assoc, List.append_assoc]
    exact List.Perm.append_left _ List.perm_append_comm
  · show List.Perm (m.stack ++ (m.heap ++ [e])) ((m.stack ++ m.heap) ++ [e])
    rw [List.append_assoc]

theorem flatten_set_snoc {β : Type} {L : List (List β)} {i : Nat}
    {x : List β} (hx : L[i]? = some x) (e : β) :
    List.Perm ((L.set i (x ++ [e])).flatten) (L.flatten ++ [e]) := by
  induction L generalizing i with
  | nil => simp at hx
  | cons h t ih =>
    cases i with
    | zero =>
      simp only [List.getElem?_cons_zero, Option.some.injEq] at hx
      subst hx
      simp only [List.set_cons_zero, List.flatten_cons]
      rw [List.append_assoc, List.append_assoc]
      exact List.Perm.append_left _ List.perm_append_comm
    | succ j =>
      simp only [List.getElem?_cons_succ] at hx
      simp only [List.set_cons_succ, List.flatten_cons]
      rw [List.append_assoc]
      exact List.Perm.append_left _ (ih hx)

/-- The `r_apply` on an entity present in some candidate storage: the erase is
applied at the first storage whose `contains` answers true, every storage of
the result satisfies the invariant, exactly the erased entity leaves the
combined live set, and the sparse array changes only at the moved back
entity `b`. -/
theorem rApplyErase_found {α : Type} {sts : List (Storage α)}
    {sp : SparseArray} {e : Nat}
    (hinv : ∀ st ∈ sts, StInv st sp)
    (hnd : ((sts.map Storage.dense).flatten).Nodup)
    (hmem : e ∈ (sts.map Storage.dense).flatten) :
    ∃ sts' sp' b,
      rApplyErase sts sp e = some (sts', sp') ∧
      (∀ st' ∈ sts', StInv st' sp') ∧
      List.Perm ((sts'.map Storage.dense).flatten ++ [e])
        ((sts.map Storage.dense).flatten) ∧
      b ∈ (sts.map Storage.dense).flatten ∧
      (∀ a, a ≠ b → sp'.index a = sp.index a) := by
  induction sts with
  | nil => simp at hmem
  | cons st rest ih =>
    cases rest with
    | nil =>
      simp only [List.map_cons, List.map_nil, List.flatten_cons,
        List.flatten_nil, List.append_nil] at hmem hnd ⊢
      have hst := hinv st (List.mem_cons_self st [])
      obtain ⟨i, hi, hspi, hilt⟩ := hst.index_of_mem hmem
      obtain ⟨st', sp', heq, hinv', hperm, hcap, hlen, heno, hsubm,
        ⟨b, hbm, hspw⟩, hpres, hf1, hf2⟩ := Storage.erase_main hst hi
      refine ⟨[st'], sp', b, ?_, ?_, ?_, hbm, ?_⟩
      · simp [rApplyErase, heq]
      · intro s hs
        rw [List.mem_singleton] at hs
        subst hs
        exact hinv'
      · simp only [List.map_cons, List.map_nil, List.flatten_cons,
          List.flatten_nil, List.append_nil]
        exact hperm
      · intro a ha
        rw [hspw]
        exact SparseArray.index_write_ne sp i ha
    | cons r rs =>
      simp only [List.map_cons, List.flatten_cons] at hmem hnd ⊢
      by_cases hc : st.contains sp e = true
      · have hst := hinv st (List.mem_cons_self st (r :: rs))
        have hmem1 : e ∈ st.dense := (Storage.contains_iff_mem hst e).mp hc
        obtain ⟨i, hi, hspi, hilt⟩ := hst.index_of_mem hmem1
        obtain ⟨st', sp', heq, hinv', hperm, hcap, hlen, heno, hsubm,
          ⟨b, hbm, hspw⟩, hpres, hf1, hf2⟩ := Storage.erase_main hst hi
        refine ⟨st' :: r :: rs, sp', b, ?_, ?_, ?_, List.mem_append_left _ hbm, ?_⟩
        · simp [rApplyErase, hc, heq]
        · intro s hs
          rcases List.mem_cons.mp hs with hs1 | hs2
          · subst hs1
            exact hinv'
          · have hsinv := hinv s (List.mem_cons_of_mem _ hs2)
            constructor
            · exact hsinv.len_comps
            · exact hsinv.nodup
            · intro j a hj
              have haF : a ∈ ((r :: rs).map Storage.dense).flatten :=
                List.mem_flatten.mpr ⟨s.dense,
                  List.mem_map_of_mem Storage.dense hs2, mem_of_getElem? hj⟩
              have hanb : a ≠ b := fun hab =>
                (List.nodup_append.mp hnd).2.2 (hab ▸ hbm) haF
              rw [hspw, SparseArray.index_write_ne _ _ hanb]
              exact hsinv.sp_ok j a hj
        · simp only [List.map_cons, List.flatten_cons]
          rw [List.append_assoc]
          refine List.Perm.trans (List.Perm.append_left _ List.perm_append_comm) ?_
          rw [← List.append_assoc]
          exact List.Perm.append_right _ hperm
        · intro a ha
          rw [hspw]
          exact SparseArray.index_write_ne sp i ha
      · have hst := hinv st (List.mem_cons_self st (r :: rs))
        have hnost : e ∉ st.dense := fun hm =>
          hc ((Storage.contains_iff_mem hst e).mpr hm)
        have hmem2 : e ∈ ((r :: rs).map Storage.dense).flatten := by
          rcases List.mem_append.mp hmem with h1 | h2
          · exact absurd h1 hnost
          · exact h2
        have hndF : (((r :: rs).map Storage.dense).flatten).Nodup :=
          (List.nodup_append.mp hnd).2.1
        have hinvF : ∀ s ∈ r :: rs, StInv s sp := fun s hs =>
          hinv s (List.mem_cons_of_mem _ hs)
        obtain ⟨sts', sp', b, heq, hinv', hperm, hbF, hagree⟩ :=
          ih hinvF hndF hmem2
        refine ⟨st :: sts', sp', b, ?_, ?_, ?_, List.mem_append_right _ hbF,
          hagree⟩
        · simp [rApplyErase, hc, heq]
        · intro s hs
          rcases List.mem_cons.mp hs with h1 | h2
          · subst h1
            constructor
            · exact hst.len_comps
            · exact hst.nodup
            · intro j a hj
              have hanb : a ≠ b := fun hab =>
                (List.nodup_append.mp hnd).2.2 (hab ▸ mem_of_getElem? hj) hbF
              rw [hagree a hanb]
              exact hst.sp_ok j a hj
          · exact hinv' s h2
        · simp only [List.map_cons, List.flatten_cons]
          rw [List.append_assoc]
          exact List.Perm.append_left _ hperm

theorem flatten_replicate_nil {β : Type} (n : Nat) :
    (List.replicate n ([] : List β)).flatten = [] := by
  induction n with
  | zero => rfl
  | succ k ih => simp [List.replicate_succ, ih]

theorem liveList_init {α : Type} (n : Nat) : liveList (initRegistry α n) = [] := by
  show ((List.replicate n (emptyStorage : Storage α)).map Storage.dense).flatten = []
  rw [List.map_replicate]
  exact flatten_replicate_nil n

/-- The freshly constructed registry satisfies the invariant. -/
theorem regInv_init {α : Type} (n : Nat) : RegInv (initRegistry α n) := by
  constructor
  · intro st hst
    rw [show (initRegistry α n).storages = List.replicate n emptyStorage from rfl,
      List.mem_replicate] at hst
    rw [hst.2]
    exact stInv_empty _
  · rw [liveList_init]
    exact List.nodup_nil
  · rw [liveList_init]
    intro a ha
    cases ha
  · intro a ha
    cases ha
  · exact List.nodup_nil
  · intro a ha
    cases ha

/-- A freshly generated identifier is never a currently live one. -/
theorem RegInv.fresh {α : Type} {r : Registry α} (h : RegInv r) :
    r.manager.generate.1 ∉ liveList r := by
  rcases EntityManager.generate_cases r.manager with ⟨hmem, _, _⟩ | ⟨_, hcur, _, _⟩
  · exact h.free_live _ hmem
  · rw [hcur]
    intro hl
    exact absurd (h.live_lt _ hl) (lt_irrefl _)

/-- The `registry::create` preserves the registry invariant and adds exactly the
generated entity to the live set. -/
theorem RegInv.create_step {α : Type} {r : Registry α} (h : RegInv r)
    {i : Nat} {c : α} {e : Nat} {r' : Registry α}
    (hc : r.create i c = some (e, r')) :
    RegInv r' ∧ List.Perm (liveList r') (liveList r ++ [e]) ∧ e ∉ liveList r := by
  unfold Registry.create at hc
  cases hsi : r.storages[i]? with
  | none =>
    rw [hsi] at hc
    cases hc
  | some st =>
    rw [hsi] at hc
    simp only [Option.some.injEq, Prod.mk.injEq] at hc
    obtain ⟨he, hr'⟩ := hc
    subst he
    subst hr'
    have hfresh : r.manager.generate.1 ∉ liveList r := h.fresh
    have hstmem : st ∈ r.storages := mem_of_getElem? hsi
    have hsub_live : ∀ s ∈ r.storages, ∀ a ∈ s.dense, a ∈ liveList r := by
      intro s hs a ha
      exact List.mem_flatten.mpr ⟨s.dense, List.mem_map_of_mem Storage.dense hs, ha⟩
    have hnotin : r.manager.generate.1 ∉ st.dense := fun hm =>
      hfresh (hsub_live st hstmem _ hm)
    have hx : (r.storages.map Storage.dense)[i]? = some st.dense := by
      rw [List.getElem?_map, hsi]
      rfl
    have hlive' : List.Perm
        (((r.storages.set i
            (st.insert r.shared r.manager.generate.1 c).1).map Storage.dense).flatten)
        (liveList r ++ [r.manager.generate.1]) := by
      rw [List.map_set]
      exact flatten_set_snoc hx r.manager.generate.1
    have hnodup' : (liveList r ++ [r.manager.generate.1]).Nodup := by
      rw [List.nodup_append]
      exact ⟨h.live_nodup, List.nodup_singleton _, fun a ha hae =>
        hfresh (List.mem_singleton.mp hae ▸ ha)⟩
    refine ⟨?_, hlive', hfresh⟩
    constructor
    · intro s' hs'
      rcases List.mem_or_eq_of_mem_set hs' with hold | hnew
      · exact StInv.insert_other (h.st_inv s' hold)
          (fun hm => hfresh (hsub_live s' hold _ hm)) c
      · rw [hnew]
        exact StInv.insert (h.st_inv st hstmem) hnotin c
    · exact hlive'.nodup_iff.mpr hnodup'
    · intro a ha
      have ha2 := hlive'.subset ha
      rcases EntityManager.generate_cases r.manager with
        ⟨hmemf, hpermf, hcur⟩ | ⟨hfe, hecur, hcur, hfree'⟩
      · show a < r.manager.generate.2.current
        rw [hcur]
        rcases List.mem_append.mp ha2 with h1 | h2
        · exact h.live_lt a h1
        · rw [List.mem_singleton.mp h2]
          exact h.free_lt _ hmemf
      · show a < r.manager.generate.2.current
        rw [hcur]
        rcases List.mem_append.mp ha2 with h1 | h2
        · exact Nat.lt_succ_of_lt (h.live_lt a h1)
        · rw [List.mem_singleton.mp h2, hecur]
          exact Nat.lt_succ_self _
    · intro a ha
      rcases EntityManager.generate_cases r.manager with
        ⟨hmemf, hpermf, hcur⟩ | ⟨hfe, hecur, hcur, hfree'⟩
      · show a < r.manager.generate.2.current
        rw [hcur]
        exact h.free_lt a (hpermf.subset (List.mem_append_left _ ha))
      · rw [hfree'] at ha
        cases ha
    · rcases EntityManager.generate_cases r.manager with
        ⟨hmemf, hpermf, hcur⟩ | ⟨hfe, hecur, hcur, hfree'⟩
      · have : (freeList r.manager.generate.2 ++ [r.manager.generate.1]).Nodup :=
          hpermf.nodup_iff.mpr h.free_nodup
        exact (List.nodup_append.mp this).1
      · rw [hfree']
        exact List.nodup_nil
    · intro a ha hal
      rcases EntityManager.generate_cases r.manager with
        ⟨hmemf, hpermf, hcur⟩ | ⟨hfe, hecur, hcur, hfree'⟩
      · have hnd2 : (freeList r.manager.generate.2 ++ [r.manager.generate.1]).Nodup :=
          hpermf.nodup_iff.mpr h.free_nodup
        have hane : a ≠ r.manager.generate.1 := fun hae =>
          (List.nodup_append.mp hnd2).2.2 ha (List.mem_singleton.mpr hae)
        have hainfree : a ∈ freeList r.manager :=
          hpermf.subset (List.mem_append_left _ ha)
        have ha2 := hlive'.subset hal
        rcases List.mem_append.mp ha2 with h1 | h2
        · exact h.free_live a hainfree h1
        · exact hane (List.mem_singleton.mp h2)
      · rw [hfree'] at ha
        cases ha

/-- The `basic_view::destroy` of a live entity preserves the registry invariant
and removes exactly that entity from the live set. -/
theorem RegInv.destroy_step {α : Type} {r : Registry α} (h : RegInv r)
    {e : Nat} {r' : Registry α} (hmem : e ∈ liveList r)
    (hd : r.viewDestroy e = some r') :
    RegInv r' ∧ List.Perm (liveList r' ++ [e]) (liveList r) := by
  unfold Registry.viewDestroy at hd
  obtain ⟨sts', sp', b, heq, hinv', hperm, hbmem, hagree⟩ :=
    rApplyErase_found h.st_inv h.live_nodup hmem
  rw [heq] at hd
  simp only [Option.map_some', Option.some.injEq] at hd
  subst hd
  have hlive' : List.Perm
      ((List.map Storage.dense sts').flatten ++ [e]) (liveList r) := hperm
  have hnd2 : ((List.map Storage.dense sts').flatten ++ [e]).Nodup :=
    hlive'.nodup_iff.mpr h.live_nodup
  have hen : e ∉ (List.map Storage.dense sts').flatten := fun he =>
    (List.nodup_append.mp hnd2).2.2 he (List.mem_singleton.mpr rfl)
  have hsubl : ∀ a ∈ (List.map Storage.dense sts').flatten, a ∈ liveList r :=
    fun a ha => hlive'.subset (List.mem_append_left _ ha)
  have hfnotin : e ∉ freeList r.manager := fun hef => h.free_live e hef hmem
  have hfperm := EntityManager.release_free r.manager e
  have hfcur := EntityManager.release_current r.manager e
  have hfnodup : (freeList r.manager ++ [e]).Nodup := by
    rw [List.nodup_append]
    exact ⟨h.free_nodup, List.nodup_singleton _, fun a ha hae =>
      hfnotin (List.mem_singleton.mp hae ▸ ha)⟩
  refine ⟨?_, hlive'⟩
  constructor
  · exact hinv'
  · exact (List.nodup_append.mp hnd2).1
  · intro a ha
    show a < (r.manager.release e).current
    rw [hfcur]
    exact h.live_lt a (hsubl a ha)
  · intro a ha
    show a < (r.manager.release e).current
    rw [hfcur]
    have := hfperm.subset ha
    rcases List.mem_append.mp this with h1 | h2
    · exact h.free_lt a h1
    · rw [List.mem_singleton.mp h2]
      exact h.live_lt e hmem
  · exact hfperm.nodup_iff.mpr hfnodup
  · intro a ha hal
    have := hfperm.subset ha
    rcases List.mem_append.mp this with h1 | h2
    · exact h.free_live a h1 (hsubl a hal)
    · rw [List.mem_singleton.mp h2] at hal
      exact hen hal

/-- Any registry workload of creations and liveness-respecting destroys
preserves the registry invariant. -/
theorem execRegistry_inv {α : Type} {r out : Registry α}
    {ops : List (RegistryOp α)} (h : RegInv r)
    (hex : execRegistry r ops = some out) : RegInv out := by
  induction ops generalizing r with
  | nil =>
    simp only [execRegistry] at hex
    exact (Option.some.inj hex) ▸ h
  | cons op ops ih =>
    simp only [execRegistry] at hex
    cases op with
    | create i c =>
      simp only [stepRegistry] at hex
      cases hc : r.create i c with
      | none =>
        rw [hc] at hex
        cases hex
      | some p =>
        rw [hc] at hex
        simp only [Option.map_some', Option.some_bind] at hex
        exact ih (RegInv.create_step h (by rw [hc])).1 hex
    | destroy e =>
      simp only [stepRegistry] at hex
      by_cases hg : (r.storages.any fun st => st.contains r.shared e) = true
      · rw [if_pos hg] at hex
        obtain ⟨st, hstm, hstc⟩ := List.any_eq_true.mp hg
        have hmem : e ∈ liveList r := by
          refine List.mem_flatten.mpr ⟨st.dense, List.mem_map_of_mem _ hstm, ?_⟩
          exact (Storage.contains_iff_mem (h.st_inv st hstm) e).mp hstc
        cases hd : r.viewDestroy e with
        | none =>
          rw [hd] at hex
          cases hex
        | some r2 =>
          rw [hd] at hex
          simp only [Option.some_bind] at hex
          exact ih (RegInv.destroy_step h hmem hd).1 hex
      · rw [if_neg hg] at hex
        cases hex

/-- The `storage::shrink_to_fit` is idempotent: after the first call the
capacity equals the size, so the second call's guard fails. -/
theorem Storage.shrink_idem {α : Type} (st : Storage α) :
    st.shrinkToFit.shrinkToFit = st.shrinkToFit := by
  by_cases hc : st.dense.length ≠ st.capacity
  · have h1 : st.shrinkToFit = { st with capacity := st.dense.length } := by
      unfold Storage.shrinkToFit
      rw [if_pos hc]
    rw [h1]
    unfold Storage.shrinkToFit
    rw [if_neg]
    intro hh
    exact hh rfl
  · have h1 : st.shrinkToFit = st := by
      unfold Storage.shrinkToFit
      rw [if_neg hc]
    rw [h1, h1]

/-- The `entity_manager::swap` on an explicit record, with its locals expanded. -/
theorem EntityManager.swap_fields (cur : Nat) (s hp : List Nat) (c : Nat) :
    EntityManager.swap ⟨cur, s, hp, c⟩ =
      if hp.length ≠ 0 ∧ s.length ≠ stackCapacity then
        ⟨cur,
         s ++ hp.drop (hp.length -
           (if hp.length < stackCapacity - s.length then hp.length
            else stackCapacity - s.length)),
         hp.take (hp.length -
           (if hp.length < stackCapacity - s.length then hp.length
            else stackCapacity - s.length)),
         c⟩
      else ⟨cur, s, hp, c⟩ := rfl

/-- The `entity_manager::shrink_to_fit` on an explicit record. -/
theorem EntityManager.shrinkToFit_fields (cur : Nat) (s hp : List Nat) (c : Nat) :
    EntityManager.shrinkToFit ⟨cur, s, hp, c⟩ =
      if hp.length ≠ c ∧ hp.length > minimumHeapCapacity then ⟨cur, s, hp, hp.length⟩
      else ⟨cur, s, hp, c⟩ := rfl

/-- The allocator maintenance pass `swap(); shrink_to_fit()` run by
`registry::optimize` is idempotent: after the first pass either the heap
buffer is drained or the stack buffer is full, so the second `swap` moves
nothing, and the second `shrink_to_fit` finds the capacity already tight. -/
theorem EntityManager.optimize_twice_eq (m : EntityManager) :
    m.swap.shrinkToFit.swap.shrinkToFit = m.swap.shrinkToFit := by
  obtain ⟨cur, s, hp, c⟩ := m
  by_cases h1 : hp.length ≠ 0 ∧ s.length ≠ stackCapacity
  · by_cases h2 : hp.length < stackCapacity - s.length
    · -- the whole heap buffer fits: it is drained
      have e1 : EntityManager.swap ⟨cur, s, hp, c⟩ =
          ⟨cur, s ++ hp.drop (hp.length - hp.length), [], c⟩ := by
        rw [EntityManager.swap_fields, if_pos h1, if_pos h2]
        simp [Nat.sub_self]
      have e2 : EntityManager.shrinkToFit ⟨cur, s ++ hp.drop (hp.length - hp.length), [], c⟩ =
          ⟨cur, s ++ hp.drop (hp.length - hp.length), [], c⟩ := by
        rw [EntityManager.shrinkToFit_fields, if_neg]
        intro hx
        simp [minimumHeapCapacity, stackCapacity] at hx
      have e3 : EntityManager.swap ⟨cur, s ++ hp.drop (hp.length - hp.length), [], c⟩ =
          ⟨cur, s ++ hp.drop (hp.length - hp.length), [], c⟩ := by
        rw [EntityManager.swap_fields, if_neg]
        intro hx
        simp at hx
      rw [e1, e2, e3, e2]
    · by_cases h3 : s.length ≤ stackCapacity
      · -- the stack buffer is filled to capacity
        have e1 : EntityManager.swap ⟨cur, s, hp, c⟩ =
            ⟨cur, s ++ hp.drop (hp.length - (stackCapacity - s.length)),
             hp.take (hp.length - (stackCapacity - s.length)), c⟩ := by
          rw [EntityManager.swap_fields, if_pos h1, if_neg h2]
        have hslen : (s ++ hp.drop (hp.length - (stackCapacity - s.length))).length
            = stackCapacity := by
          rw [List.length_append, List.length_drop]
          omega
        by_cases h4 : (hp.take (hp.length - (stackCapacity - s.length))).length ≠ c ∧
            (hp.take (hp.length - (stackCapacity - s.length))).length > minimumHeapCapacity
        · have e2 : EntityManager.shrinkToFit
              ⟨cur, s ++ hp.drop (hp.length - (stackCapacity - s.length)),
               hp.take (hp.length - (stackCapacity - s.length)), c⟩ =
              ⟨cur, s ++ hp.drop (hp.length - (stackCapacity - s.length)),
               hp.take (hp.length - (stackCapacity - s.length)),
               (hp.take (hp.length - (stackCapacity - s.length))).length⟩ := by
            rw [EntityManager.shrinkToFit_fields, if_pos h4]
          have e3 : EntityManager.swap
              ⟨cur, s ++ hp.drop (hp.length - (stackCapacity - s.length)),
               hp.take (hp.length - (stackCapacity - s.length)),
               (hp.take (hp.length - (stackCapacity - s.length))).length⟩ =
              ⟨cur, s ++ hp.drop (hp.length - (stackCapacity - s.length)),
               hp.take (hp.length - (stackCapacity - s.length)),
               (hp.take (hp.length - (stackCapacity - s.length))).length⟩ := by
            rw [EntityManager.swap_fields, if_neg]
            intro hx
            exact hx.2 hslen
          have e4 : EntityManager.shrinkToFit
              ⟨cur, s ++ hp.drop (hp.length - (stackCapacity - s.length)),
               hp.take (hp.length - (stackCapacity - s.length)),
               (hp.take (hp.length - (stackCapacity - s.length))).length⟩ =
              ⟨cur, s ++ hp.drop (hp.length - (stackCapacity - s.length)),
               hp.take (hp.length - (stackCapacity - s.length)),
               (hp.take (hp.length - (stackCapacity - s.length))).length⟩ := by
            rw [EntityManager.shrinkToFit_fields, if_neg]
            intro hx
            exact hx.1 rfl
          rw [e1, e2, e3, e4]
        · have e2 : EntityManager.shrinkToFit
              ⟨cur, s ++ hp.drop (hp.length - (stackCapacity - s.length)),
               hp.take (hp.length - (stackCapacity - s.length)), c⟩ =
              ⟨cur, s ++ hp.drop (hp.length - (stackCapacity - s.length)),
               hp.take (hp.length - (stackCapacity - s.length)), c⟩ := by
            rw [EntityManager.shrinkToFit_fields, if_neg h4]
          have e3 : EntityManager.swap
              ⟨cur, s ++ hp.drop (hp.length - (stackCapacity - s.length)),
               hp.take (hp.length - (stackCapacity - s.length)), c⟩ =
              ⟨cur, s ++ hp.drop (hp.length - (stackCapacity - s.length)),
               hp.take (hp.length - (stackCapacity - s.length)), c⟩ := by
            rw [EntityManager.swap_fields, if_neg]
            intro hx
            exact hx.2 hslen
          rw [e1, e2, e3, e2]
      · -- degenerate: the stack already exceeds its capacity, `stack_space`
        -- is zero and the swap moves nothing
        have hz : stackCapacity - s.length = 0 := by omega
        have e1 : EntityManager.swap ⟨cur, s, hp, c⟩ = ⟨cur, s, hp, c⟩ := by
          rw [EntityManager.swap_fields, if_pos h1, if_neg h2, hz]
          simp [List.drop_length, List.take_length]
        by_cases h4 : hp.length ≠ c ∧ hp.length > minimumHeapCapacity
        · have e2 : EntityManager.shrinkToFit ⟨cur, s, hp, c⟩ =
              ⟨cur, s, hp, hp.length⟩ := by
            rw [EntityManager.shrinkToFit_fields, if_pos h4]
          have e3 : EntityManager.swap ⟨cur, s, hp, hp.length⟩ =
              ⟨cur, s, hp, hp.length⟩ := by
            rw [EntityManager.swap_fields, if_pos h1, if_neg h2, hz]
            simp [List.drop_length, List.take_length]
          have e4 : EntityManager.shrinkToFit ⟨cur, s, hp, hp.length⟩ =
              ⟨cur, s, hp, hp.length⟩ := by
            rw [EntityManager.shrinkToFit_fields, if_neg]
            intro hx
            exact hx.1 rfl
          rw [e1, e2, e3, e4]
        · have e2 : EntityManager.shrinkToFit ⟨cur, s, hp, c⟩ =
              ⟨cur, s, hp, c⟩ := by
            rw [EntityManager.shrinkToFit_fields, if_neg h4]
          rw [e1, e2, e1, e2]
  · have e1 : EntityManager.swap ⟨cur, s, hp, c⟩ = ⟨cur, s, hp, c⟩ := by
      rw [EntityManager.swap_fields, if_neg h1]
    by_cases h4 : hp.length ≠ c ∧ hp.length > minimumHeapCapacity
    · have e2 : EntityManager.shrinkToFit ⟨cur, s, hp, c⟩ =
          ⟨cur, s, hp, hp.length⟩ := by
        rw [EntityManager.shrinkToFit_fields, if_pos h4]
      have e3 : EntityManager.swap ⟨cur, s, hp, hp.length⟩ =
          ⟨cur, s, hp, hp.length⟩ := by
        rw [EntityManager.swap_fields, if_neg h1]
      have e4 : EntityManager.shrinkToFit ⟨cur, s, hp, hp.length⟩ =
          ⟨cur, s, hp, hp.length⟩ := by
        rw [EntityManager.shrinkToFit_fields, if_neg]
        intro hx
        exact hx.1 rfl
      rw [e1, e2, e3, e4]
    · have e2 : EntityManager.shrinkToFit ⟨cur, s, hp, c⟩ =
          ⟨cur, s, hp, c⟩ := by
        rw [EntityManager.shrinkToFit_fields, if_neg h4]
      rw [e1, e2, e1, e2]

/-- The `registry::optimize` is idempotent on the whole registry state. -/
theorem Registry.optimize_optimize_eq {α : Type} (r : Registry α) :
    r.optimize.optimize = r.optimize := by
  show Registry.mk
      (((r.storages.map Storage.shrinkToFit)).map Storage.shrinkToFit) r.shared
      (r.manager.swap.shrinkToFit.swap.shrinkToFit)
    = Registry.mk (r.storages.map Storage.shrinkToFit) r.shared
      (r.manager.swap.shrinkToFit)
  rw [List.map_map, EntityManager.optimize_twice_eq]
  congr 1
  exact List.map_congr_left fun a _ => Storage.shrink_idem a

theorem execManager_append (m : EntityManager) (l1 l2 : List ManagerOp) :
    execManager m (l1 ++ l2) = execManager (execManager m l1) l2 :=
  List.foldl_append stepManager m l1 l2

theorem execManager_gen (cur c : Nat) (n : Nat) :
    execManager ⟨cur, [], [], c⟩ (List.replicate n ManagerOp.gen) =
      ⟨cur + n, [], [], c⟩ := by
  induction n generalizing cur with
  | zero => rfl
  | succ k ih =>
    rw [List.replicate_succ]
    show execManager (stepManager ⟨cur, [], [], c⟩ ManagerOp.gen)
      (List.replicate k ManagerOp.gen) = ⟨cur + (k + 1), [], [], c⟩
    have hstep : stepManager ⟨cur, [], [], c⟩ ManagerOp.gen =
        ⟨cur + 1, [], [], c⟩ := rfl
    rw [hstep, ih]
    congr 1
    omega

theorem execManager_rel (cur c : Nat) (s l : List Nat)
    (hlen : s.length + l.length ≤ stackCapacity) :
    execManager ⟨cur, s, [], c⟩ (l.map ManagerOp.rel) = ⟨cur, s ++ l, [], c⟩ := by
  induction l generalizing s with
  | nil => simp [execManager]
  | cons e rest ih =>
    rw [List.map_cons]
    show execManager (stepManager ⟨cur, s, [], c⟩ (ManagerOp.rel e))
      (rest.map ManagerOp.rel) = ⟨cur, s ++ e :: rest, [], c⟩
    have hstep : stepManager ⟨cur, s, [], c⟩ (ManagerOp.rel e) =
        ⟨cur, s ++ [e], [], c⟩ := by
      show EntityManager.release ⟨cur, s, [], c⟩ e = _
      unfold EntityManager.release
      rw [if_pos]
      show s.length < stackCapacity
      simp only [List.length_cons] at hlen
      omega
    rw [hstep, ih]
    · rw [List.append_assoc]
      rfl
    · simp only [List.length_append, List.length_cons, List.length_nil] at hlen ⊢
      omega

/-- The `generate` immediately after `release(h)` returns `h` when the stack
buffer had room: the release pushed `h` on top of the stack. -/
theorem generate_after_release_stack (m : EntityManager) (h : Nat)
    (hs : m.stack.length < stackCapacity) : ((m.release h).generate).1 = h := by
  unfold EntityManager.release
  rw [if_pos hs]
  unfold EntityManager.generate
  rw [if_pos (by simp)]
  simp [List.getLast?_concat]

/-- The `generate` immediately after `release(h)` when the stack buffer is full:
`h` went to the heap buffer, but `generate` pops the stack buffer first. -/
theorem generate_after_release_full (m : EntityManager) (h : Nat)
    (hs : m.stack.length = stackCapacity) :
    ((m.release h).generate).1 = m.stack.getLast?.getD 0 ∧
    h ∈ (m.release h).heap := by
  unfold EntityManager.release
  rw [if_neg (by omega)]
  constructor
  · unfold EntityManager.generate
    rw [if_pos (by show m.stack.length ≠ 0; rw [hs]; decide)]
  · simp

/-- The `generate` returns a recycled entity whenever one exists. -/
theorem generate_mem_free (m : EntityManager) (hne : freeList m ≠ []) :
    m.generate.1 ∈ freeList m := by
  rcases EntityManager.generate_cases m with ⟨hm, _, _⟩ | ⟨hf, _, _, _⟩
  · exact hm
  · exact absurd hf hne

/-- The `generate` falls back to the counter exactly when no recycled entity
exists. -/
theorem generate_counter (m : EntityManager) (he : freeList m = []) :
    m.generate.1 = m.current := by
  rcases EntityManager.generate_cases m with ⟨hm, _, _⟩ | ⟨_, hc, _, _⟩
  · rw [he] at hm
    cases hm
  · exact hc

/-- The `r_apply` when no candidate's `contains` check succeeds: the recursion
walks to the final candidate and applies the action there unconditionally —
it never reports a failure and never recurses past the end. -/
theorem rApplyErase_absent {α : Type} {sts : List (Storage α)}
    {sp : SparseArray} {e : Nat} (hne : sts ≠ [])
    (habs : ∀ s ∈ sts.dropLast, s.contains sp e = false) :
    rApplyErase sts sp e =
      ((sts.getLast hne).erase sp e).map fun p => (sts.dropLast ++ [p.1], p.2) := by
  induction sts with
  | nil => exact absurd rfl hne
  | cons st rest ih =>
    cases rest with
    | nil => simp [rApplyErase]
    | cons r rs =>
      have hcst : st.contains sp e = false := by
        refine habs st ?_
        rw [List.dropLast_cons₂]
        exact List.mem_cons_self st _
      have habs' : ∀ s ∈ (r :: rs).dropLast, s.contains sp e = false := by
        intro s hs
        refine habs s ?_
        rw [List.dropLast_cons₂]
        exact List.mem_cons_of_mem st hs
      have hne' : r :: rs ≠ [] := List.cons_ne_nil r rs
      show (if st.contains sp e = true then _ else _) = _
      rw [hcst]
      simp only [Bool.false_eq_true, if_false]
      rw [ih hne' habs']
      have hgl : (st :: r :: rs).getLast hne = (r :: rs).getLast hne' :=
        List.getLast_cons hne'
      rw [hgl]
      cases hres : ((r :: rs).getLast hne').erase sp e with
      | none => rfl
      | some p =>
        simp only [Option.map_some', Option.some.injEq]
        rw [List.dropLast_cons₂, List.cons_append]

/-- The `prune_for` is the registration-order filter of the archetypes that
contain the required types; no reordering takes place. -/
theorem pruneFor_eq_filter (xs : List (List Nat)) (req : List Nat) :
    pruneFor xs req = xs.filter fun s => containsAllTypes s req := by
  induction xs with
  | nil => rfl
  | cons s rest ih =>
    by_cases hc : containsAllTypes s req = true
    · simp [pruneFor, List.filter_cons, hc, ih]
    · simp only [Bool.not_eq_true] at hc
      simp [pruneFor, List.filter_cons, hc, ih]

/-- C1: for every storage, after any sequence of insert and erase operations
(respecting the documented preconditions), every entity currently held
satisfies `dense[sparse_index(e)] = e` with `sparse_index(e) < size`, and the
dense slots `[0, size)` are exactly the live entities, with no gaps and no
duplicates; in particular the invariant is restored after every erase. -/
theorem spec_c1 {α : Type} (ops : List (StorageOp α)) (st : Storage α)
    (sp : SparseArray)
    (hex : execStorage (emptyStorage, sparseInit) ops = some (st, sp)) :
    (∀ e ∈ st.dense, ∃ idx, sp.index e = some idx ∧ idx < st.dense.length ∧
      st.dense[idx]? = some e) ∧
    st.dense.Nodup ∧
    (∀ e, st.contains sp e = true ↔ e ∈ st.dense) := by
  have hinv : StInv st sp := execStorage_inv (stInv_empty sparseInit) hex
  refine ⟨?_, hinv.nodup, fun e => Storage.contains_iff_mem hinv e⟩
  intro e he
  obtain ⟨i, hi, hsp, hlt⟩ := hinv.index_of_mem he
  exact ⟨i, hsp, hlt, hi⟩

theorem spec_c1_witness :
    (∀ e ∈ c1res.1.dense, ∃ idx, c1res.2.index e = some idx ∧
      idx < c1res.1.dense.length ∧ c1res.1.dense[idx]? = some e) ∧
    c1res.1.dense.Nodup ∧
    (∀ e, c1res.1.contains c1res.2 e = true ↔ e ∈ c1res.1.dense) :=
  spec_c1 c1ops c1res.1 c1res.2 rfl

/-- C2: erasing an entity that does not occupy the last dense slot moves only
the last slot's record into the freed slot and leaves every other contained
entity present with its component value unchanged; erasing the entity in the
last dense slot is a pure truncation. -/
theorem spec_c2 {α : Type} {st : Storage α} {sp : SparseArray} {e idx : Nat}
    (hinv : StInv st sp) (hget : st.dense[idx]? = some e) :
    ∃ st' sp', st.erase sp e = some (st', sp') ∧
      (∀ e', e' ∈ st.dense → e' ≠ e →
        st'.contains sp' e' = true ∧ st'.unpack sp' e' = st.unpack sp e') ∧
      (idx < st.dense.length - 1 →
        st'.dense[idx]? = some (st.dense.getD (st.dense.length - 1) 0) ∧
        st'.comps[idx]? = st.comps[st.dense.length - 1]? ∧
        (∀ j, j < st.dense.length - 1 → j ≠ idx →
          st'.dense[j]? = st.dense[j]? ∧ st'.comps[j]? = st.comps[j]?)) ∧
      (idx = st.dense.length - 1 →
        st'.dense = st.dense.take (st.dense.length - 1) ∧
        st'.comps = st.comps.take (st.dense.length - 1)) ∧
      st'.dense.length = st.dense.length - 1 := by
  obtain ⟨st', sp', heq, _, _, _, hlen, _, _, _, hpres, hf1, hf2⟩ :=
    Storage.erase_main hinv hget
  exact ⟨st', sp', heq,
    fun e' hm hne => ⟨(hpres e' hm hne).2, (hpres e' hm hne).1⟩,
    hf1, hf2, hlen⟩

theorem spec_c2_witness :
    ∃ st' sp', c2res.1.erase c2res.2 9 = some (st', sp') ∧
      (∀ e', e' ∈ c2res.1.dense → e' ≠ 9 →
        st'.contains sp' e' = true ∧ st'.unpack sp' e' = c2res.1.unpack c2res.2 e') ∧
      (1 < c2res.1.dense.length - 1 →
        st'.dense[1]? = some (c2res.1.dense.getD (c2res.1.dense.length - 1) 0) ∧
        st'.comps[1]? = c2res.1.comps[c2res.1.dense.length - 1]? ∧
        (∀ j, j < c2res.1.dense.length - 1 → j ≠ 1 →
          st'.dense[j]? = c2res.1.dense[j]? ∧ st'.comps[j]? = c2res.1.comps[j]?)) ∧
      (1 = c2res.1.dense.length - 1 →
        st'.dense = c2res.1.dense.take (c2res.1.dense.length - 1) ∧
        st'.comps = c2res.1.comps.take (c2res.1.dense.length - 1)) ∧
      st'.dense.length = c2res.1.dense.length - 1 :=
  spec_c2 (@execStorage_inv Nat (emptyStorage, sparseInit) c2res c2ops
    (stInv_empty sparseInit) rfl) (by decide)

/-- C3: with two storages sharing one sparse array, membership is gated by
each storage's own dense array, not by the shared table: after inserting
entity 10 into A only and entity 20 into B only, `A.contains 20` and
`B.contains 10` are false while `A.contains 10` and `B.contains 20` are
true; in general, under the storage invariant, `contains e` is true exactly
when the storage itself holds `e`. -/
theorem spec_c3 :
    (c3A.contains c3sp 20 = false ∧ c3B.contains c3sp 10 = false ∧
     c3A.contains c3sp 10 = true ∧ c3B.contains c3sp 20 = true) ∧
    (∀ (α : Type) (st : Storage α) (sp : SparseArray) (e : Nat),
      StInv st sp → (st.contains sp e = true ↔ e ∈ st.dense)) :=
  ⟨⟨by decide, by decide, by decide, by decide⟩,
   fun _ st sp e h => Storage.contains_iff_mem h e⟩

theorem spec_c3_witness : c3A.contains c3sp 10 = true ↔ 10 ∈ c3A.dense := by
  refine spec_c3.2 Nat c3A c3sp 10 ?_
  constructor
  · decide
  · decide
  · intro i e hi
    have hd : c3A.dense = [10] := rfl
    rw [hd] at hi
    cases i with
    | zero =>
      simp only [List.getElem?_cons_zero, Option.some.injEq] at hi
      subst hi
      decide
    | succ j => simp at hi

/-- C4: for all sequences of create and destroy operations (with no
double-destroy) the set of live entity handles has no duplicates, and the
handle the next `generate` would return is never a currently-live handle. -/
theorem spec_c4 {α : Type} (n : Nat) (ops : List (RegistryOp α))
    (r : Registry α) (hex : execRegistry (initRegistry α n) ops = some r) :
    (liveList r).Nodup ∧ r.manager.generate.1 ∉ liveList r := by
  have hinv := execRegistry_inv (regInv_init n) hex
  exact ⟨hinv.live_nodup, hinv.fresh⟩

theorem spec_c4_witness :
    (liveList c4res).Nodup ∧ c4res.manager.generate.1 ∉ liveList c4res :=
  spec_c4 2 c4ops c4res rfl

/-- C5 (corrected): `generate()` immediately after `release(h)` returns `h`
only when the fixed stack buffer had room at the release; when the stack
buffer is full, `h` goes to the heap buffer and `generate` pops the stack
top instead.  In general `generate` returns a recycled handle whenever any
exists (stack buffer first) and only otherwise the next counter value. -/
theorem spec_c5 (m : EntityManager) (h : Nat) :
    (m.stack.length < stackCapacity → ((m.release h).generate).1 = h) ∧
    (m.stack.length = stackCapacity →
      ((m.release h).generate).1 = m.stack.getLast?.getD 0 ∧
      h ∈ (m.release h).heap) ∧
    (freeList m ≠ [] → m.generate.1 ∈ freeList m) ∧
    (freeList m = [] → m.generate.1 = m.current) :=
  ⟨generate_after_release_stack m h, generate_after_release_full m h,
   generate_mem_free m, generate_counter m⟩

theorem spec_c5_witness : ((c5small.release 9).generate).1 = 9 :=
  (spec_c5 c5small 9).1 (by decide)

/-- C5 counterexample: the reachable allocator state `c5full` has a full
stack buffer; releasing handle 4096 there and calling `generate` with no
intervening calls returns 4095 (the stack top), not 4096 — refuting
"generate immediately after release(h) returns h" for every reachable
state. -/
theorem spec_c5_counterexample :
    ManagerReachable c5full ∧
    ((c5full.release 4096).generate).1 = 4095 ∧
    ((c5full.release 4096).generate).1 ≠ 4096 := by
  have hs : c5full.stack.length = stackCapacity := by
    simp only [c5full, List.length_range, stackCapacity]
  have hgetlast : c5full.stack.getLast?.getD 0 = 4095 := by
    simp only [c5full]
    rw [show (4096 : Nat) = 4095 + 1 from rfl, List.range_succ,
      List.getLast?_concat]
    simp only [Option.getD_some]
  have hgen : ((c5full.release 4096).generate).1 = 4095 := by
    obtain ⟨h1, _⟩ := generate_after_release_full c5full 4096 hs
    rw [h1]
    exact hgetlast
  refine ⟨⟨c5ops, ?_⟩, hgen, by rw [hgen]; decide⟩
  simp only [c5ops]
  rw [execManager_append]
  rw [show initManager = (⟨0, [], [], minimumHeapCapacity⟩ : EntityManager) from rfl,
    execManager_gen 0 minimumHeapCapacity 4097,
    show (0 : Nat) + 4097 = 4097 from rfl]
  have h2 := execManager_rel 4097 minimumHeapCapacity [] (List.range 4096)
    (by simp [stackCapacity])
  rw [h2]
  simp only [List.nil_append, c5full]

theorem c6ne : c6reg.storages ≠ [] := by
  intro h
  have h1 : c6reg.storages.length = 1 := rfl
  rw [h] at h1
  cases h1

/-- C6 (corrected): a view-mediated destroy of a handle contained in none of
the candidate storages does not report a "not found" condition — the
recursion probes candidates in order and applies the erase to the final
candidate unconditionally (the documented undefined-behaviour case), then
still releases the handle; it never recurses past the end of the list. -/
theorem spec_c6 {α : Type} (r : Registry α) (e : Nat) (hne : r.storages ≠ [])
    (habs : ∀ s ∈ r.storages.dropLast, s.contains r.shared e = false) :
    r.viewDestroy e =
      ((r.storages.getLast hne).erase r.shared e).map fun p =>
        { storages := r.storages.dropLast ++ [p.1], shared := p.2,
          manager := r.manager.release e } := by
  unfold Registry.viewDestroy
  rw [rApplyErase_absent hne habs]
  cases hres : (r.storages.getLast hne).erase r.shared e <;> simp

theorem spec_c6_witness :
    c6reg.viewDestroy 1 =
      ((c6reg.storages.getLast c6ne).erase c6reg.shared 1).map fun p =>
        { storages := c6reg.storages.dropLast ++ [p.1], shared := p.2,
          manager := c6reg.manager.release 1 } :=
  spec_c6 c6reg 1 c6ne (by decide)

/-- C6 counterexample: in `c6reg` the storage holds exactly entity 0 and no
candidate storage contains entity 1, yet `basic_view::destroy 1` signals no
error: it erases from the last candidate anyway (silently destroying the
record of entity 0) and double-releases handle 1, where the
specification-modelled destroy reports "not found". -/
theorem spec_c6_counterexample :
    (c6reg.storages.map Storage.dense) = [[0]] ∧
    (c6reg.storages.map fun st => st.contains c6reg.shared 1) = [false] ∧
    c6reg.viewDestroySpec 1 = Except.error "not found" ∧
    (c6reg.viewDestroy 1).map (fun r => r.storages.map Storage.dense) =
      some [[]] ∧
    (c6reg.viewDestroy 1).map (fun r => r.manager.stack) = some [1, 1] :=
  ⟨by decide, by decide, rfl, by decide, by decide⟩

/-- C7 (corrected): `prune_for` keeps the registration order of every
accepted archetype and performs no reordering at all — the candidate list is
exactly the registration-order filter of the schemas containing all
requested fields. -/
theorem spec_c7 (xs : List (List Nat)) (req : List Nat) :
    pruneFor xs req = xs.filter fun s => containsAllTypes s req :=
  pruneFor_eq_filter xs req

/-- C7 counterexample: with archetypes `[{1,2}, {1}]` and requested fields
`{1}`, the exact-size match `{1}` is not moved to the front: `prune_for`
keeps registration order, unlike the candidate list the specification
describes. -/
theorem spec_c7_counterexample :
    pruneFor [[1, 2], [1]] [1] = [[1, 2], [1]] ∧
    pruneForSpec [[1, 2], [1]] [1] = [[1], [1, 2]] ∧
    pruneFor [[1, 2], [1]] [1] ≠ pruneForSpec [[1, 2], [1]] [1] :=
  ⟨by decide, by decide, by decide⟩

/-- C8: `storage::share` succeeds exactly on an empty storage — it rebinds
to the supplied table (incrementing its share count) and releases the
previously bound one (unsharing it, or deleting it when it was the unshared
owner) — and throws on a non-empty storage, leaving everything unchanged. -/
theorem spec_c8 {α : Type} (st : Storage α) (cur neu : SparseArray) :
    (st.dense.length = 0 →
      st.shareTable cur neu = Except.ok (neu.incShare,
        if cur.shared ≠ 0 then some cur.decShare else none)) ∧
    (st.dense.length ≠ 0 →
      st.shareTable cur neu = Except.error
        "You cannot share a sparse_array with a storage that is not empty") := by
  constructor
  · intro h
    unfold Storage.shareTable
    rw [if_neg (by omega)]
  · intro h
    unfold Storage.shareTable
    rw [if_pos h]

theorem spec_c8_witness :
    (emptyStorage : Storage Nat).shareTable sparseInit c3sp =
      Except.ok (c3sp.incShare,
        if sparseInit.shared ≠ 0 then some sparseInit.decShare else none) ∧
    c2res.1.shareTable c2res.2 sparseInit =
      Except.error
        "You cannot share a sparse_array with a storage that is not empty" :=
  ⟨(spec_c8 emptyStorage sparseInit c3sp).1 rfl,
   (spec_c8 c2res.1 c2res.2 sparseInit).2 (by decide)⟩

/-- C9: `registry::optimize` is idempotent — a second call with no
intervening mutation is a no-op on the whole observable state, in
particular on every storage's capacity, the allocator's heap capacity and
the reusable-entity counts. -/
theorem spec_c9 {α : Type} (r : Registry α) :
    r.optimize.optimize = r.optimize ∧
    r.optimize.optimize.storages.map Storage.capacity =
      r.optimize.storages.map Storage.capacity ∧
    r.optimize.optimize.manager.heapCapacity =
      r.optimize.manager.heapCapacity ∧
    r.optimize.optimize.manager.stack.length =
      r.optimize.manager.stack.length ∧
    r.optimize.optimize.manager.heap.length =
      r.optimize.manager.heap.length := by
  have h := Registry.optimize_optimize_eq r
  exact ⟨h, by rw [h], by rw [h], by rw [h], by rw [h]⟩

/-- C10: after `storage::clear` (and hence after `registry::destroy_all`),
`contains` answers false for every entity, including the previously present
ones: the stale sparse entries (and the stale dense contents) are never
interpreted as membership because the recorded slot must lie below the now
zero size. -/
theorem spec_c10 (α : Type) :
    (∀ (st : Storage α) (sp : SparseArray) (e : Nat),
      (st.clear).contains sp e = false) ∧
    (∀ (r : Registry α) (e : Nat), ∀ st' ∈ r.destroyAll.storages,
      st'.contains r.destroyAll.shared e = false) := by
  have h1 : ∀ (st : Storage α) (sp : SparseArray) (e : Nat),
      (st.clear).contains sp e = false := by
    intro st sp e
    cases hidx : sp.index e with
    | none => simp [Storage.contains, hidx]
    | some idx => simp [Storage.contains, hidx, Storage.clear]
  refine ⟨h1, ?_⟩
  intro r e st' hst'
  replace hst' : st' ∈ r.storages.map Storage.clear := hst'
  obtain ⟨s, hs, rfl⟩ := List.mem_map.mp hst'
  exact h1 s _ e

theorem spec_c10_witness :
    (Storage.clear c2res.1).contains c2res.2 9 = false ∧
    (c6reg.destroyAll.storages.getD 0 emptyStorage).contains
      c6reg.destroyAll.shared 0 = false :=
  ⟨(spec_c10 Nat).1 c2res.1 c2res.2 9,
   (spec_c10 Nat).2 c6reg 0 _ (List.Mem.head _)⟩
